import Mathlib

/-!
Verification of the ExtractChinese repository (extract_chinese.py).

This file gives a shallow embedding of the Chinese-string extraction tool:
strings are lists of characters, the regex scanners of the Python source are
re-implemented as explicit left-to-right scanners with identical semantics,
and the per-line / per-file extraction pipeline, deduplication and key
generation are translated function-by-function from the source.
-/

set_option maxHeartbeats 1000000
set_option maxRecDepth 2048

namespace ExtractChinese

/-- Characters in the range U+4E00 to U+9FFF, the check used by
the source guard (backslash-u4e00 up to backslash-u9fff). -/
def isChineseChar (c : Char) : Bool :=
  0x4e00 ≤ c.toNat && c.toNat ≤ 0x9fff

/-- Whitespace as matched by the regex class backslash-s and by str.strip
(ASCII model: space, tab, newline, carriage return, vertical tab, form feed). -/
def isPySpace (c : Char) : Bool :=
  c = ' ' || c = '\t' || c = '\n' || c = '\r' || c = '\x0b' || c = '\x0c'

/-- Python str.strip(): remove leading and trailing whitespace. -/
def pyStrip (s : List Char) : List Char :=
  ((s.dropWhile isPySpace).reverse.dropWhile isPySpace).reverse

/-- Decimal digit character for a value below ten. -/
def digitChar (n : Nat) : Char :=
  Char.ofNat (48 + n)

/-- Fuel-driven helper for natDigits; the fuel is always sufficient. -/
def natDigitsAux : Nat → Nat → List Char
  | 0, _ => []
  | fuel + 1, n =>
    if n < 10 then [digitChar n]
    else natDigitsAux fuel (n / 10) ++ [digitChar (n % 10)]

/-- Decimal rendering of a natural number, as Python str(i). -/
def natDigits (n : Nat) : List Char :=
  natDigitsAux (n + 1) n

theorem digitChar_isDigit {n : Nat} (h : n < 10) : (digitChar n).isDigit = true := by
  interval_cases n <;> decide

theorem natDigitsAux_ne_nil (fuel n : Nat) (h : 0 < fuel) : natDigitsAux fuel n ≠ [] := by
  match fuel with
  | 0 => omega
  | fuel + 1 =>
    rw [natDigitsAux]
    split
    · simp
    · simp

theorem natDigits_ne_nil (n : Nat) : natDigits n ≠ [] :=
  natDigitsAux_ne_nil (n + 1) n (Nat.succ_pos n)

theorem natDigitsAux_all_digit :
    ∀ fuel n, ∀ c ∈ natDigitsAux fuel n, c.isDigit = true := by
  intro fuel
  induction fuel with
  | zero => intro n c hc; simp [natDigitsAux] at hc
  | succ fuel ih =>
    intro n c hc
    rw [natDigitsAux] at hc
    by_cases h : n < 10
    · rw [if_pos h] at hc
      simp only [List.mem_singleton] at hc
      subst hc
      exact digitChar_isDigit h
    · rw [if_neg h] at hc
      simp only [List.mem_append, List.mem_singleton] at hc
      rcases hc with hc | hc
      · exact ih (n / 10) c hc
      · subst hc
        exact digitChar_isDigit (Nat.mod_lt _ (by norm_num))

theorem natDigits_all_digit (n : Nat) : ∀ c ∈ natDigits n, c.isDigit = true :=
  natDigitsAux_all_digit (n + 1) n

theorem isDigit_ne_rbrace {c : Char} (h : c.isDigit = true) : c ≠ '}' := by
  intro he
  subst he
  exact absurd h (by decide)

theorem isDigit_ne_lbrace {c : Char} (h : c.isDigit = true) : c ≠ '{' := by
  intro he
  subst he
  exact absurd h (by decide)

theorem isDigit_ne_quote {c : Char} (h : c.isDigit = true) : c ≠ '"' := by
  intro he
  subst he
  exact absurd h (by decide)

/-- Substring containment test (used for the block-comment markers). -/
def containsSub (pat : List Char) : List Char → Bool
  | [] => pat.isEmpty
  | c :: rest => pat.isPrefixOf (c :: rest) || containsSub pat rest

/-- Python content.split with newline: split a file into physical lines. -/
def splitNl : List Char → List (List Char)
  | [] => [[]]
  | c :: rest =>
    if c = '\n' then [] :: splitNl rest
    else
      match splitNl rest with
      | [] => [[c]]
      | l :: ls => (c :: l) :: ls

/-! ## The placeholder scanner

The regex used by the source for substitution placeholders is
open-brace, one or more non-close-brace characters, close-brace
(non-greedy and non-nested: the span ends at the first close brace).
matchSplit finds the first match, returning the text before the match,
the match itself, and the text after it, exactly as the re module scans:
try the pattern at each position from the left, advancing one character
after a failed attempt and past the whole match after a successful one. -/

/-- Prepend a character to the pre-match segment of a scan result. -/
def consFail (c : Char) :
    Option (List Char × List Char × List Char) → Option (List Char × List Char × List Char)
  | none => none
  | some (a, p, b) => some (c :: a, p, b)

/-- First match of the placeholder regex, split as (before, match, after). -/
def matchSplit : List Char → Option (List Char × List Char × List Char)
  | [] => none
  | c :: rest =>
    if c = '{' then
      match rest.dropWhile (fun d => d ≠ '}') with
      | d :: tail =>
        if d = '}' then
          if (rest.takeWhile (fun d => d ≠ '}')).isEmpty then consFail c (matchSplit rest)
          else some ([], '{' :: rest.takeWhile (fun d => d ≠ '}') ++ ['}'], tail)
        else consFail c (matchSplit rest)
      | [] => consFail c (matchSplit rest)
    else consFail c (matchSplit rest)

theorem consFail_eq_some {c : Char} {r : Option (List Char × List Char × List Char)}
    {a p b : List Char} (h : consFail c r = some (a, p, b)) :
    ∃ a', a = c :: a' ∧ r = some (a', p, b) := by
  match r with
  | none => simp [consFail] at h
  | some (a', p', b') =>
    simp only [consFail, Option.some.injEq, Prod.mk.injEq] at h
    obtain ⟨h1, h2, h3⟩ := h
    exact ⟨a', by simp [← h1, h2, h3]⟩

theorem matchSplit_decomp {s a p b : List Char}
    (h : matchSplit s = some (a, p, b)) : s = a ++ p ++ b := by
  induction s generalizing a p b with
  | nil => simp [matchSplit] at h
  | cons c rest ih =>
    rw [matchSplit] at h
    by_cases hc : c = '{'
    · rw [if_pos hc] at h
      rcases hd : rest.dropWhile (fun d => d ≠ '}') with _ | ⟨d, tail⟩
      · rw [hd] at h
        obtain ⟨a', ha, hr⟩ := consFail_eq_some h
        subst ha
        rw [ih hr]
        simp [List.append_assoc]
      · rw [hd] at h
        simp only at h
        by_cases hdd : d = '}'
        · rw [if_pos hdd] at h
          subst hdd
          by_cases he : (rest.takeWhile (fun d => d ≠ '}')).isEmpty = true
          · rw [if_pos he] at h
            obtain ⟨a', ha, hr⟩ := consFail_eq_some h
            subst ha
            rw [ih hr]
            simp [List.append_assoc]
          · rw [if_neg he] at h
            simp only [Option.some.injEq, Prod.mk.injEq] at h
            obtain ⟨h1, h2, h3⟩ := h
            have hsplit : rest.takeWhile (fun d => d ≠ '}') ++
                rest.dropWhile (fun d => d ≠ '}') = rest :=
              List.takeWhile_append_dropWhile _ _
            rw [hd] at hsplit
            rw [← h1, ← h2, ← h3, hc]
            conv_lhs => rw [← hsplit]
            simp [List.append_assoc]
        · rw [if_neg hdd] at h
          obtain ⟨a', ha, hr⟩ := consFail_eq_some h
          subst ha
          rw [ih hr]
          simp [List.append_assoc]
    · rw [if_neg hc] at h
      obtain ⟨a', ha, hr⟩ := consFail_eq_some h
      subst ha
      rw [ih hr]
      simp [List.append_assoc]

theorem matchSplit_shape {s a p b : List Char}
    (h : matchSplit s = some (a, p, b)) :
    ∃ ds, ds ≠ [] ∧ (∀ c ∈ ds, c ≠ '}') ∧ p = '{' :: ds ++ ['}'] := by
  induction s generalizing a p b with
  | nil => simp [matchSplit] at h
  | cons c rest ih =>
    rw [matchSplit] at h
    by_cases hc : c = '{'
    · rw [if_pos hc] at h
      rcases hd : rest.dropWhile (fun d => d ≠ '}') with _ | ⟨d, tail⟩
      · rw [hd] at h
        obtain ⟨a', _, hr⟩ := consFail_eq_some h
        exact ih hr
      · rw [hd] at h
        simp only at h
        by_cases hdd : d = '}'
        · rw [if_pos hdd] at h
          by_cases he : (rest.takeWhile (fun d => d ≠ '}')).isEmpty = true
          · rw [if_pos he] at h
            obtain ⟨a', _, hr⟩ := consFail_eq_some h
            exact ih hr
          · rw [if_neg he] at h
            simp only [Option.some.injEq, Prod.mk.injEq] at h
            refine ⟨rest.takeWhile (fun d => d ≠ '}'), ?_, ?_, h.2.1.symm⟩
            · intro hnil
              rw [hnil] at he
              exact he rfl
            · intro x hx
              have := List.mem_takeWhile_imp hx
              simpa using this
        · rw [if_neg hdd] at h
          obtain ⟨a', _, hr⟩ := consFail_eq_some h
          exact ih hr
    · rw [if_neg hc] at h
      obtain ⟨a', _, hr⟩ := consFail_eq_some h
      exact ih hr

theorem matchSplit_after_lt {s a p b : List Char}
    (h : matchSplit s = some (a, p, b)) : b.length < s.length := by
  obtain ⟨ds, hne, _, hp⟩ := matchSplit_shape h
  have hd := matchSplit_decomp h
  have : s.length = a.length + p.length + b.length := by
    rw [hd]; simp [List.length_append]; ring
  have hplen : 0 < p.length := by
    rw [hp]; simp
  omega

/-- Fuel-driven helper for findPlaceholders; the fuel only serves to make
the recursion structural and is always at least the string length. -/
def findPlaceholdersF : Nat → List Char → List (List Char)
  | 0, _ => []
  | fuel + 1, s =>
    match matchSplit s with
    | none => []
    | some (_, p, b) => p :: findPlaceholdersF fuel b

/-- All matches of the placeholder regex in scan order (re.findall). -/
def findPlaceholders (s : List Char) : List (List Char) :=
  findPlaceholdersF s.length s

theorem findPlaceholdersF_congr :
    ∀ (n m : Nat) (s : List Char), s.length ≤ n → s.length ≤ m →
      findPlaceholdersF n s = findPlaceholdersF m s := by
  intro n
  induction n using Nat.strong_induction_on with
  | _ n ih =>
    intro m s hn hm
    match n, m with
    | 0, 0 => rfl
    | 0, m + 1 =>
      have hs : s = [] := List.length_eq_zero.mp (Nat.le_zero.mp hn)
      subst hs
      rfl
    | n + 1, 0 =>
      have hs : s = [] := List.length_eq_zero.mp (Nat.le_zero.mp hm)
      subst hs
      rfl
    | n + 1, m + 1 =>
      simp only [findPlaceholdersF]
      cases hms : matchSplit s with
      | none => rfl
      | some t =>
        obtain ⟨a, p, b⟩ := t
        have hb := matchSplit_after_lt hms
        have h1 : b.length ≤ n := by omega
        have h2 : b.length ≤ m := by omega
        exact congrArg (p :: ·) (ih n (Nat.lt_succ_self n) m b h1 h2)

/-- Unfolding equation for findPlaceholders. -/
theorem findPlaceholders_eq (s : List Char) :
    findPlaceholders s = match matchSplit s with
      | none => []
      | some (_, p, b) => p :: findPlaceholders b := by
  show findPlaceholdersF s.length s = _
  cases hl : s.length with
  | zero =>
    have hs : s = [] := List.length_eq_zero.mp hl
    subst hs
    rfl
  | succ k =>
    simp only [findPlaceholdersF]
    cases hms : matchSplit s with
    | none => rfl
    | some t =>
      obtain ⟨a, p, b⟩ := t
      have hb := matchSplit_after_lt hms
      rw [hl] at hb
      exact congrArg (p :: ·) (findPlaceholdersF_congr k b.length b (by omega) (Nat.le_refl _))

/-- The numbered substitution token for index i. -/
def numToken (i : Nat) : List Char :=
  '{' :: natDigits i ++ ['}']

/-- Fuel-driven helper for specNormalize. -/
def specNormalizeF : Nat → Nat → List Char → List Char
  | 0, _, s => s
  | fuel + 1, k, s =>
    match matchSplit s with
    | none => s
    | some (a, _, b) => a ++ numToken k ++ specNormalizeF fuel (k + 1) b

/-- Definition following the specification text, for comparison with the
source normalizer: every placeholder span is replaced, in left-to-right
position order, by the token for the next sequential index, and all other
text is unchanged. -/
def specNormalize (k : Nat) (s : List Char) : List Char :=
  specNormalizeF s.length k s

theorem specNormalizeF_congr :
    ∀ (n m : Nat) (k : Nat) (s : List Char), s.length ≤ n → s.length ≤ m →
      specNormalizeF n k s = specNormalizeF m k s := by
  intro n
  induction n using Nat.strong_induction_on with
  | _ n ih =>
    intro m k s hn hm
    match n, m with
    | 0, 0 => rfl
    | 0, m + 1 =>
      have hs : s = [] := List.length_eq_zero.mp (Nat.le_zero.mp hn)
      subst hs
      rfl
    | n + 1, 0 =>
      have hs : s = [] := List.length_eq_zero.mp (Nat.le_zero.mp hm)
      subst hs
      rfl
    | n + 1, m + 1 =>
      simp only [specNormalizeF]
      cases hms : matchSplit s with
      | none => rfl
      | some t =>
        obtain ⟨a, p, b⟩ := t
        have hb := matchSplit_after_lt hms
        have h1 : b.length ≤ n := by omega
        have h2 : b.length ≤ m := by omega
        exact congrArg (fun z => a ++ numToken k ++ z) (ih n (Nat.lt_succ_self n) m (k + 1) b h1 h2)

/-- Unfolding equation for specNormalize. -/
theorem specNormalize_eq (k : Nat) (s : List Char) :
    specNormalize k s = match matchSplit s with
      | none => s
      | some (a, _, b) => a ++ numToken k ++ specNormalize (k + 1) b := by
  show specNormalizeF s.length k s = _
  cases hl : s.length with
  | zero =>
    have hs : s = [] := List.length_eq_zero.mp hl
    subst hs
    rfl
  | succ n =>
    simp only [specNormalizeF]
    cases hms : matchSplit s with
    | none => rfl
    | some t =>
      obtain ⟨a, p, b⟩ := t
      have hb := matchSplit_after_lt hms
      rw [hl] at hb
      exact congrArg (fun z => a ++ numToken k ++ z)
        (specNormalizeF_congr n b.length (k + 1) b (by omega) (Nat.le_refl _))

/-- Python str.replace(old, new, 1): substitute at the first occurrence of
old only, leaving the string unchanged when old does not occur. -/
def replaceFirst (old nw : List Char) : List Char → List Char
  | [] => if old.isPrefixOf ([] : List Char) then nw else []
  | c :: rest =>
    if old.isPrefixOf (c :: rest) then nw ++ (c :: rest).drop old.length
    else c :: replaceFirst old nw rest

/-- The source normalizer: collect all placeholder matches, then replace
each of them in match order by its numbered token, each replacement landing
on the first textual occurrence of the matched text (str.replace count 1). -/
def formatString (text : List Char) : List Char :=
  (findPlaceholders text).enum.foldl (fun r q => replaceFirst q.2 (numToken q.1) r) text

/-- Tests whether a placeholder text is itself a numbered token shape:
open brace, one or more digits, close brace. -/
def isDigitToken : List Char → Bool
  | c :: rest =>
    if c = '{' then
      match rest.reverse with
      | d :: mid => d = '}' && !mid.isEmpty && mid.all (fun x => x.isDigit)
      | [] => false
    else false
  | [] => false

example : matchSplit "a{bc}d".data = some ("a".data, "{bc}".data, "d".data) := by decide

example : findPlaceholders "x\x7bab\x7dy\x7b0\x7dz".data = ["\x7bab\x7d".data, "\x7b0\x7d".data] := by
  decide

example : formatString "\x7ba\x7d\x7b0\x7d".data = "\x7b1\x7d\x7b0\x7d".data := by
  decide

example : formatString "Lv.\x7bcfg.level\x7d / \x7bNumberUtils.Format(power)\x7d".data = "Lv.\x7b0\x7d / \x7b1\x7d".data := by
  decide

example : specNormalize 0 "\x7ba\x7d\x7b0\x7d".data = "\x7b0\x7d\x7b1\x7d".data := by
  decide

/-! ## Structure of the scanned string

The pre-match segment of a scan contains no position where a match could
start: every open brace in it is immediately followed by a close brace.
Prefixes already processed by the replacement loop additionally contain
numbered tokens; both shapes are captured by GoodPre below, and no
placeholder that is not itself a pure digit token can occur at any
position inside such a prefix. -/

/-- Every open brace in the segment is immediately followed by a close
brace inside the segment. -/
def Inert (a : List Char) : Prop :=
  ∀ s₁ s₂, a = s₁ ++ '{' :: s₂ → ∃ t, s₂ = '}' :: t

/-- Every open brace in the prefix is followed, inside the prefix, by a
possibly-empty run of digits and then a close brace. -/
def GoodPre (pre : List Char) : Prop :=
  ∀ s₁ s₂, pre = s₁ ++ '{' :: s₂ →
    ∃ ds t, s₂ = ds ++ '}' :: t ∧ ∀ c ∈ ds, c.isDigit = true

theorem goodPre_nil : GoodPre [] := by
  intro s₁ s₂ h
  exact absurd h (by simp)

theorem inert_goodPre {a : List Char} (h : Inert a) : GoodPre a := by
  intro s₁ s₂ he
  obtain ⟨t, ht⟩ := h s₁ s₂ he
  exact ⟨[], t, by simp [ht], by simp⟩

theorem inert_of_cons {c : Char} {l : List Char} (h : Inert (c :: l)) : Inert l := by
  intro s₁ s₂ he
  exact h (c :: s₁) s₂ (by rw [he]; rfl)

theorem goodPre_append {x y : List Char} (hx : GoodPre x) (hy : GoodPre y) :
    GoodPre (x ++ y) := by
  intro s₁ s₂ he
  rcases List.append_eq_append_iff.mp he with ⟨a', ha1, ha2⟩ | ⟨c', hc1, hc2⟩
  · exact hy a' s₂ ha2
  · match c', hc2 with
    | [], hc2 =>
      exact hy [] s₂ (by simpa using hc2.symm)
    | c₀ :: c'', hc2 =>
      simp only [List.cons_append] at hc2
      injection hc2 with hc0 htail
      obtain ⟨ds, t, hds, hdig⟩ := hx s₁ c'' (by rw [hc1, ← hc0])
      exact ⟨ds, t ++ y, by rw [htail, hds]; simp, hdig⟩

theorem brace_not_in_token_tail (k : Nat) : '{' ∉ natDigits k ++ ['}'] := by
  intro hm
  rcases List.mem_append.mp hm with hm | hm
  · exact isDigit_ne_lbrace (natDigits_all_digit k _ hm) rfl
  · simp at hm

theorem goodPre_token (k : Nat) : GoodPre (numToken k) := by
  intro s₁ s₂ he
  simp only [numToken] at he
  match s₁, he with
  | [], he =>
    simp only [List.nil_append] at he
    injection he with _ h2
    have h2' : natDigits k ++ ['}'] = s₂ := h2
    exact ⟨natDigits k, [], by rw [← h2'], fun c hc => natDigits_all_digit k c hc⟩
  | c₀ :: s₁', he =>
    exfalso
    simp only [List.cons_append] at he
    injection he with _ h2
    have h2' : natDigits k ++ ['}'] = s₁' ++ '{' :: s₂ := h2
    exact brace_not_in_token_tail k (by rw [h2']; simp)

theorem dropWhile_head_false {p : Char → Bool} {l : List Char} {x : Char} {xs : List Char}
    (h : l.dropWhile p = x :: xs) : p x = false := by
  induction l with
  | nil => simp at h
  | cons c r ih =>
    rw [List.dropWhile_cons] at h
    by_cases hc : p c = true
    · rw [if_pos hc] at h
      exact ih h
    · rw [if_neg hc] at h
      injection h with h1 _
      rw [← h1]
      cases hpc : p c with
      | true => exact absurd hpc hc
      | false => rfl

theorem dropWhile_eq_nil_of_all {p : Char → Bool} {l : List Char}
    (h : ∀ x ∈ l, p x = true) : l.dropWhile p = [] := by
  induction l with
  | nil => rfl
  | cons c r ih =>
    rw [List.dropWhile_cons, if_pos (h c (List.mem_cons_self c r))]
    exact ih (fun x hx => h x (List.mem_cons_of_mem c hx))

theorem all_of_dropWhile_eq_nil {p : Char → Bool} {l : List Char}
    (h : l.dropWhile p = []) : ∀ x ∈ l, p x = true := by
  induction l with
  | nil => simp
  | cons c r ih =>
    rw [List.dropWhile_cons] at h
    by_cases hc : p c = true
    · rw [if_pos hc] at h
      intro x hx
      rcases List.mem_cons.mp hx with hx | hx
      · rw [hx]; exact hc
      · exact ih h x hx
    · rw [if_neg hc] at h
      simp at h

theorem all_dropWhile_append {p : Char → Bool} {u v : List Char}
    (h : ∀ c ∈ u, p c = true) : (u ++ v).dropWhile p = v.dropWhile p := by
  induction u with
  | nil => rfl
  | cons c r ih =>
    rw [List.cons_append, List.dropWhile_cons, if_pos (h c (List.mem_cons_self c r))]
    exact ih (fun x hx => h x (List.mem_cons_of_mem c hx))

theorem all_takeWhile_append {p : Char → Bool} {u v : List Char}
    (h : ∀ c ∈ u, p c = true) : (u ++ v).takeWhile p = u ++ v.takeWhile p := by
  induction u with
  | nil => rfl
  | cons c r ih =>
    rw [List.cons_append, List.takeWhile_cons, if_pos (h c (List.mem_cons_self c r))]
    rw [ih (fun x hx => h x (List.mem_cons_of_mem c hx))]
    rfl

theorem matchSplit_none_of_no_rbrace {s : List Char} (h : ∀ c ∈ s, c ≠ '}') :
    matchSplit s = none := by
  induction s with
  | nil => rfl
  | cons c rest ih =>
    have hr : matchSplit rest = none := ih (fun x hx => h x (List.mem_cons_of_mem c hx))
    rw [matchSplit]
    by_cases hc : c = '{'
    · rw [if_pos hc]
      have hd : rest.dropWhile (fun d => d ≠ '}') = [] := by
        apply dropWhile_eq_nil_of_all
        intro x hx
        simp [h x (List.mem_cons_of_mem c hx)]
      rw [hd, hr]
      rfl
    · rw [if_neg hc, hr]
      rfl

theorem matchSplit_pre_inert {s a p b : List Char}
    (h : matchSplit s = some (a, p, b)) : Inert a := by
  induction s generalizing a p b with
  | nil => simp [matchSplit] at h
  | cons c rest ih =>
    rw [matchSplit] at h
    by_cases hc : c = '{'
    · rw [if_pos hc] at h
      rcases hd : rest.dropWhile (fun d => d ≠ '}') with _ | ⟨d, tail⟩
      · exfalso
        rw [hd] at h
        have hnone : matchSplit rest = none := by
          apply matchSplit_none_of_no_rbrace
          intro x hx
          have := all_of_dropWhile_eq_nil hd x hx
          simpa using this
        rw [hnone] at h
        simp [consFail] at h
      · rw [hd] at h
        simp only at h
        have hdd : d = '}' := by
          have := dropWhile_head_false hd
          simpa using this
        rw [if_pos hdd] at h
        by_cases he : (rest.takeWhile (fun d => d ≠ '}')).isEmpty = true
        · rw [if_pos he] at h
          obtain ⟨a', ha, hr⟩ := consFail_eq_some h
          subst ha
          intro s₁ s₂ hsplit
          match s₁, hsplit with
          | [], hsplit =>
            simp only [List.nil_append] at hsplit
            injection hsplit with h1 h2
            obtain ⟨rest', hrest⟩ : ∃ rest', rest = '}' :: rest' := by
              cases rest with
              | nil => simp [matchSplit] at hr
              | cons r0 rest' =>
                rw [List.takeWhile_cons] at he
                by_cases hr0 : r0 = '}'
                · exact ⟨rest', by rw [hr0]⟩
                · rw [if_pos (by simpa using hr0)] at he
                  simp at he
            rw [hrest, matchSplit, if_neg (by decide : ¬('}' = '{'))] at hr
            obtain ⟨a'', ha'', _⟩ := consFail_eq_some hr
            exact ⟨a'', by rw [← h2, ha'']⟩
          | s0 :: s₁', hsplit =>
            simp only [List.cons_append] at hsplit
            injection hsplit with _ h2
            exact ih hr s₁' s₂ h2
        · rw [if_neg he] at h
          simp only [Option.some.injEq, Prod.mk.injEq] at h
          obtain ⟨h1, _, _⟩ := h
          rw [← h1]
          intro s₁ s₂ hsplit
          exact absurd hsplit (by simp)
    · rw [if_neg hc] at h
      obtain ⟨a', ha, hr⟩ := consFail_eq_some h
      subst ha
      intro s₁ s₂ hsplit
      match s₁, hsplit with
      | [], hsplit =>
        simp only [List.nil_append] at hsplit
        injection hsplit with h1 _
        exact absurd h1 hc
      | s0 :: s₁', hsplit =>
        simp only [List.cons_append] at hsplit
        injection hsplit with _ h2
        exact ih hr s₁' s₂ h2

theorem matchSplit_inert_append (a ds z : List Char) (ha : Inert a) (hne : ds ≠ [])
    (hfree : ∀ c ∈ ds, c ≠ '}') :
    matchSplit (a ++ '{' :: (ds ++ '}' :: z)) = some (a, '{' :: ds ++ ['}'], z) := by
  induction a with
  | nil =>
    simp only [List.nil_append]
    rw [matchSplit, if_pos rfl]
    have hdw : (ds ++ '}' :: z).dropWhile (fun d => d ≠ '}') = '}' :: z := by
      rw [all_dropWhile_append (fun c hc => by simpa using hfree c hc)]
      rw [List.dropWhile_cons, if_neg (by simp)]
    have htw : (ds ++ '}' :: z).takeWhile (fun d => d ≠ '}') = ds := by
      rw [all_takeWhile_append (fun c hc => by simpa using hfree c hc)]
      rw [List.takeWhile_cons, if_neg (by simp)]
      simp
    rw [hdw]
    simp only
    rw [if_pos trivial, htw]
    rw [if_neg (by simpa using hne)]
  | cons c a' ih =>
    by_cases hc : c = '{'
    · obtain ⟨t, ht⟩ := ha [] a' (by rw [hc]; rfl)
      rw [List.cons_append, matchSplit, if_pos hc]
      have hdw : (a' ++ '{' :: (ds ++ '}' :: z)).dropWhile (fun d => d ≠ '}') =
          '}' :: (t ++ '{' :: (ds ++ '}' :: z)) := by
        rw [ht, List.cons_append, List.dropWhile_cons, if_neg (by simp)]
      have htw : ((a' ++ '{' :: (ds ++ '}' :: z)).takeWhile (fun d => d ≠ '}')).isEmpty
          = true := by
        rw [ht, List.cons_append, List.takeWhile_cons, if_neg (by simp)]
        rfl
      rw [hdw]
      simp only
      rw [if_pos trivial, if_pos htw]
      rw [ih (inert_of_cons ha)]
      rfl
    · rw [List.cons_append, matchSplit, if_neg hc]
      rw [ih (inert_of_cons ha)]
      rfl

theorem replaceFirst_self (old : List Char) : ∀ s, replaceFirst old old s = s := by
  intro s
  induction s with
  | nil =>
    simp only [replaceFirst]
    by_cases h : old.isPrefixOf ([] : List Char) = true
    · rw [if_pos h]
      have h2 : old = [] := List.prefix_nil.mp (List.isPrefixOf_iff_prefix.mp h)
      rw [h2]
    · rw [if_neg h]
  | cons c rest ih =>
    simp only [replaceFirst]
    by_cases h : old.isPrefixOf (c :: rest) = true
    · rw [if_pos h]
      obtain ⟨t, ht⟩ := List.isPrefixOf_iff_prefix.mp h
      rw [← ht, List.drop_left]
    · rw [if_neg h, ih]

theorem replaceFirst_at (p nw b : List Char) : replaceFirst p nw (p ++ b) = nw ++ b := by
  cases hp : p ++ b with
  | nil =>
    have hp0 : p = [] := by
      cases p with
      | nil => rfl
      | cons c r => simp at hp
    have hb0 : b = [] := by
      rw [hp0] at hp
      simpa using hp
    rw [hp0, hb0]
    simp [replaceFirst]
  | cons c rest =>
    have hpf : p.isPrefixOf (c :: rest) = true :=
      List.isPrefixOf_iff_prefix.mpr ⟨b, hp⟩
    show (if p.isPrefixOf (c :: rest) = true then nw ++ (c :: rest).drop p.length
      else c :: replaceFirst p nw rest) = nw ++ b
    rw [if_pos hpf, ← hp, List.drop_left]

theorem replaceFirst_append (pre : List Char) {old nw rest : List Char}
    (h : ∀ u, u ≠ [] → (∃ s₁, pre = s₁ ++ u) → old.isPrefixOf (u ++ rest) = false) :
    replaceFirst old nw (pre ++ rest) = pre ++ replaceFirst old nw rest := by
  induction pre with
  | nil => simp
  | cons c pre' ih =>
    rw [List.cons_append]
    simp only [replaceFirst]
    have hno : old.isPrefixOf (c :: (pre' ++ rest)) = false := by
      have := h (c :: pre') (by simp) ⟨[], rfl⟩
      simpa using this
    rw [if_neg (by simp [hno])]
    have hstep : ∀ u, u ≠ [] → (∃ s₁, pre' = s₁ ++ u) →
        old.isPrefixOf (u ++ rest) = false := by
      rintro u hu ⟨s₁, hs⟩
      exact h u hu ⟨c :: s₁, by rw [hs]; rfl⟩
    rw [ih hstep]
    simp

theorem isDigitToken_intro {ds : List Char} (hne : ds ≠ [])
    (hdig : ∀ c ∈ ds, c.isDigit = true) : isDigitToken ('{' :: ds ++ ['}']) = true := by
  have hrev : (ds ++ ['}']).reverse = '}' :: ds.reverse := by simp
  simp [isDigitToken, hrev, List.all_eq_true, List.mem_reverse, hne]
  exact hdig

theorem closeFree_eq {cp ds w v : List Char}
    (h : cp ++ '}' :: w = ds ++ '}' :: v)
    (hcp : ∀ x ∈ cp, x ≠ '}') (hds : ∀ x ∈ ds, x ≠ '}') : cp = ds := by
  induction cp generalizing ds with
  | nil =>
    cases ds with
    | nil => rfl
    | cons d ds' =>
      simp only [List.nil_append, List.cons_append] at h
      injection h with h1 _
      exact absurd h1.symm (hds d (List.mem_cons_self d ds'))
  | cons c cp' ih =>
    cases ds with
    | nil =>
      simp only [List.cons_append, List.nil_append] at h
      injection h with h1 _
      exact absurd h1 (hcp c (List.mem_cons_self c cp'))
    | cons d ds' =>
      simp only [List.cons_append] at h
      injection h with h1 h2
      rw [h1]
      rw [ih h2 (fun x hx => hcp x (List.mem_cons_of_mem _ hx))
        (fun x hx => hds x (List.mem_cons_of_mem _ hx))]

theorem no_token_start_in_goodPre {pre cp : List Char} (hg : GoodPre pre)
    (hfree : ∀ x ∈ cp, x ≠ '}') (hne : cp ≠ [])
    (hnd : isDigitToken ('{' :: cp ++ ['}']) = false) :
    ∀ u rest, u ≠ [] → (∃ s₁, pre = s₁ ++ u) →
      ('{' :: cp ++ ['}']).isPrefixOf (u ++ rest) = false := by
  intro u rest hu hex
  obtain ⟨s₁, hs⟩ := hex
  cases hful : ('{' :: cp ++ ['}']).isPrefixOf (u ++ rest) with
  | false => rfl
  | true =>
    exfalso
    obtain ⟨w, hw⟩ := List.isPrefixOf_iff_prefix.mp hful
    cases u with
    | nil => exact hu rfl
    | cons u0 u' =>
      have hu0 : u0 = '{' := by
        simp only [List.cons_append, List.append_assoc] at hw
        injection hw with h1 _
        exact h1.symm
      obtain ⟨ds, t, hds, hdig⟩ := hg s₁ u' (by rw [hs, hu0])
      have htail : cp ++ '}' :: w = ds ++ '}' :: (t ++ rest) := by
        simp only [List.cons_append] at hw
        injection hw with _ h2
        have h2' : cp ++ '}' :: w = u' ++ rest := by
          simpa [List.append_assoc] using h2
        rw [h2', hds]
        simp [List.append_assoc]
      have hcpds : cp = ds :=
        closeFree_eq htail hfree (fun x hx => isDigit_ne_rbrace (hdig x hx))
      have : isDigitToken ('{' :: cp ++ ['}']) = true := by
        rw [hcpds]
        exact isDigitToken_intro (by rw [← hcpds]; exact hne) hdig
      rw [this] at hnd
      exact Bool.noConfusion hnd

theorem format_foldl_eq :
    ∀ n x, x.length ≤ n → ∀ (k : Nat) (pre : List Char), GoodPre pre →
      (∀ p ∈ findPlaceholders x, isDigitToken p = false) →
      (List.enumFrom k (findPlaceholders x)).foldl
          (fun r q => replaceFirst q.2 (numToken q.1) r) (pre ++ x)
        = pre ++ specNormalize k x := by
  intro n
  induction n with
  | zero =>
    intro x hx k pre hpre hnd
    have hxe : x = [] := List.length_eq_zero.mp (Nat.le_zero.mp hx)
    subst hxe
    rfl
  | succ n ihn =>
    intro x hx k pre hpre hnd
    cases hms : matchSplit x with
    | none =>
      have h1 : findPlaceholders x = [] := by rw [findPlaceholders_eq, hms]
      have h2 : specNormalize k x = x := by rw [specNormalize_eq, hms]
      rw [h1, h2]
      rfl
    | some t =>
      obtain ⟨a, pm, b⟩ := t
      have hdecomp := matchSplit_decomp hms
      obtain ⟨ds, hdsne, hdsfree, hpshape⟩ := matchSplit_shape hms
      have hinert := matchSplit_pre_inert hms
      have hfp : findPlaceholders x = pm :: findPlaceholders b := by
        rw [findPlaceholders_eq, hms]
      have hsn : specNormalize k x = a ++ numToken k ++ specNormalize (k + 1) b := by
        rw [specNormalize_eq, hms]
      rw [hfp, hsn]
      have henum : List.enumFrom k (pm :: findPlaceholders b)
          = (k, pm) :: List.enumFrom (k + 1) (findPlaceholders b) := rfl
      rw [henum]
      simp only [List.foldl_cons]
      have hgpa : GoodPre (pre ++ a) := goodPre_append hpre (inert_goodPre hinert)
      have hnd0 : isDigitToken pm = false :=
        hnd pm (by rw [hfp]; exact List.mem_cons_self _ _)
      have hnoocc : ∀ u, u ≠ [] → (∃ s₁, pre ++ a = s₁ ++ u) →
          pm.isPrefixOf (u ++ (pm ++ b)) = false := by
        intro u hu hex
        rw [hpshape]
        exact no_token_start_in_goodPre hgpa hdsfree hdsne
          (by rw [← hpshape]; exact hnd0) u ('{' :: ds ++ ['}'] ++ b) hu hex
      have hstep : replaceFirst pm (numToken k) (pre ++ x)
          = (pre ++ a ++ numToken k) ++ b := by
        have hx2 : pre ++ x = (pre ++ a) ++ (pm ++ b) := by
          rw [hdecomp]
          simp [List.append_assoc]
        rw [hx2, replaceFirst_append (pre ++ a) hnoocc, replaceFirst_at]
        simp [List.append_assoc]
      rw [hstep]
      have hble := matchSplit_after_lt hms
      have hgp3 : GoodPre (pre ++ a ++ numToken k) :=
        goodPre_append hgpa (goodPre_token k)
      have hnd2 : ∀ q ∈ findPlaceholders b, isDigitToken q = false := by
        intro q hq
        exact hnd q (by rw [hfp]; exact List.mem_cons_of_mem _ hq)
      have hIH := ihn b (by omega) (k + 1) (pre ++ a ++ numToken k) hgp3 hnd2
      simp only [List.append_assoc] at hIH ⊢
      exact hIH

theorem formatString_eq_specNormalize {x : List Char}
    (h : ∀ p ∈ findPlaceholders x, isDigitToken p = false) :
    formatString x = specNormalize 0 x := by
  have h0 := format_foldl_eq x.length x (Nat.le_refl _) 0 [] goodPre_nil h
  simp only [List.nil_append] at h0
  exact h0

theorem findPlaceholders_specNormalize :
    ∀ n x, x.length ≤ n → ∀ k,
      findPlaceholders (specNormalize k x)
        = (List.range' k (findPlaceholders x).length).map numToken := by
  intro n
  induction n with
  | zero =>
    intro x hx k
    have hxe : x = [] := List.length_eq_zero.mp (Nat.le_zero.mp hx)
    subst hxe
    rfl
  | succ n ihn =>
    intro x hx k
    cases hms : matchSplit x with
    | none =>
      have h1 : specNormalize k x = x := by rw [specNormalize_eq, hms]
      have h2 : findPlaceholders x = [] := by rw [findPlaceholders_eq, hms]
      rw [h1, h2]
      simp
    | some t =>
      obtain ⟨a, pm, b⟩ := t
      have hinert := matchSplit_pre_inert hms
      have hsn : specNormalize k x = a ++ numToken k ++ specNormalize (k + 1) b := by
        rw [specNormalize_eq, hms]
      have hfp : findPlaceholders x = pm :: findPlaceholders b := by
        rw [findPlaceholders_eq, hms]
      have hms2 : matchSplit (specNormalize k x)
          = some (a, numToken k, specNormalize (k + 1) b) := by
        rw [hsn]
        have hrec := matchSplit_inert_append a (natDigits k)
          (specNormalize (k + 1) b) hinert (natDigits_ne_nil k)
          (fun c hc => isDigit_ne_rbrace (natDigits_all_digit k c hc))
        simpa [numToken, List.append_assoc] using hrec
      have hfp2 : findPlaceholders (specNormalize k x)
          = numToken k :: findPlaceholders (specNormalize (k + 1) b) := by
        rw [findPlaceholders_eq, hms2]
      have hble := matchSplit_after_lt hms
      rw [hfp2, hfp, ihn b (by omega) (k + 1)]
      simp [List.range'_succ]

theorem foldl_token_self :
    ∀ (l : List (Nat × List Char)) (s : List Char),
      (∀ q ∈ l, q.2 = numToken q.1) →
      l.foldl (fun r q => replaceFirst q.2 (numToken q.1) r) s = s := by
  intro l
  induction l with
  | nil => intro s _; rfl
  | cons q l' ih =>
    intro s hq
    rw [List.foldl_cons]
    have h1 : q.2 = numToken q.1 := hq q (List.mem_cons_self _ _)
    rw [h1, replaceFirst_self]
    exact ih s (fun r hr => hq r (List.mem_cons_of_mem _ hr))

theorem enumFrom_range'_map :
    ∀ (m k : Nat),
      List.enumFrom k ((List.range' k m).map numToken)
        = (List.range' k m).map (fun i => (i, numToken i)) := by
  intro m
  induction m with
  | zero => intro k; rfl
  | succ m ih =>
    intro k
    rw [List.range'_succ]
    simp only [List.map_cons]
    show (k, numToken k) :: List.enumFrom (k + 1) ((List.range' (k + 1) m).map numToken) = _
    rw [ih (k + 1)]

theorem formatString_specNormalize_self (x : List Char) :
    formatString (specNormalize 0 x) = specNormalize 0 x := by
  have h1 : formatString (specNormalize 0 x)
      = (List.enumFrom 0 (findPlaceholders (specNormalize 0 x))).foldl
          (fun r q => replaceFirst q.2 (numToken q.1) r) (specNormalize 0 x) := rfl
  rw [h1, findPlaceholders_specNormalize x.length x (Nat.le_refl _) 0, enumFrom_range'_map]
  apply foldl_token_self
  intro q hq
  simp only [List.mem_map] at hq
  obtain ⟨i, _, hi⟩ := hq
  rw [← hi]

/-! ## Ignore patterns (the IGNORE_API_PATTERNS table)

Each regex in the source table is embedded as a matcher that consumes a
prefix of a suffix of the line; searching tries every suffix from the
left, exactly as re.search. Alternations in the table are tried in the
regex order; literal regexes are substring tests. -/

/-- Match a literal, returning the remaining input. -/
def litM (p : List Char) (s : List Char) : Option (List Char) :=
  if p.isPrefixOf s then some (s.drop p.length) else none

/-- First alternative that matches, in order. -/
def altM : List (List Char) → List Char → Option (List Char)
  | [], _ => none
  | p :: rest, s =>
    match litM p s with
    | some r => some r
    | none => altM rest s

/-- Zero or more whitespace characters (greedy, as the regex). -/
def wsStar (s : List Char) : List Char :=
  s.dropWhile isPySpace

/-- One or more whitespace characters. -/
def wsPlus (s : List Char) : Option (List Char) :=
  if (s.takeWhile isPySpace).isEmpty then none else some (s.dropWhile isPySpace)

/-- The optional System. qualifier of the throw pattern. -/
def optSystem (s : List Char) : List Char :=
  match litM "System.".data s with
  | some r => r
  | none => s

/-- The exception type alternatives of the throw pattern, in regex order. -/
def exceptionTypes : List (List Char) :=
  ["Exception".data, "NullReferenceException".data, "ArgumentNullException".data,
   "ArgumentException".data, "IndexOutOfRangeException".data,
   "InvalidOperationException".data, "NotImplementedException".data,
   "UnauthorizedAccessException".data, "KeyNotFoundException".data,
   "DivideByZeroException".data, "OverflowException".data, "FormatException".data,
   "TimeoutException".data, "IOException".data, "DirectoryNotFoundException".data,
   "FileNotFoundException".data, "PathTooLongException".data]

/-- The throw-new-exception pattern anchored at the current position. -/
def throwMatchAt (s : List Char) : Bool :=
  match litM "throw".data s with
  | none => false
  | some s1 =>
    match wsPlus s1 with
    | none => false
    | some s2 =>
      match litM "new".data s2 with
      | none => false
      | some s3 =>
        match wsPlus s3 with
        | none => false
        | some s4 =>
          match altM exceptionTypes (optSystem s4) with
          | none => false
          | some s5 =>
            match litM "(".data (wsStar s5) with
            | none => false
            | some s6 => !(s6.dropWhile (fun c => c ≠ ')')).isEmpty

/-- A dot-method call pattern: name, optional whitespace, open paren. -/
def dotCallAt (name : List Char) (s : List Char) : Bool :=
  match litM name s with
  | none => false
  | some s1 => (litM "(".data (wsStar s1)).isSome

/-- Anchored-prefix-then-alternatives pattern. -/
def seqAltAt (pre : List Char) (alts : List (List Char)) (s : List Char) : Bool :=
  match litM pre s with
  | none => false
  | some r => (altM alts r).isSome

/-- Try the anchored matcher at every position, as re.search. -/
def searchAt (f : List Char → Bool) : List Char → Bool
  | [] => f []
  | c :: rest => f (c :: rest) || searchAt f rest

/-- The full ignore table in source order: a line matching any entry
suppresses all candidates on that line. -/
def ignoreMatches (line : List Char) : Bool :=
  searchAt (seqAltAt "Debug.".data
    ["Log".data, "LogError".data, "LogWarning".data, "LogFormat".data,
     "LogException".data]) line ||
  searchAt (seqAltAt "SLApp.Log.".data
    ["Info".data, "Warning".data, "Error".data]) line ||
  searchAt (seqAltAt "SLApp.Debug.".data
    ["Log".data, "LogFormat".data, "LogError".data, "LogWatchBegin".data,
     "LogWatchEnd".data]) line ||
  containsSub "UnityEngine.Debug.".data line ||
  containsSub "Console.WriteLine".data line ||
  containsSub "UnityEditor.EditorUtility.DisplayDialog".data line ||
  searchAt throwMatchAt line ||
  searchAt (dotCallAt ".LogException".data) line ||
  searchAt (dotCallAt ".LogErrorException".data) line ||
  containsSub "ExceptionHelper.".data line

/-! ## String literal extraction (the two findall passes) -/

/-- Fuel-driven scanner for the plain-literal regex: quote, any run of
non-quote characters, quote. Matches are non-overlapping, left to right;
a failed attempt advances one position. -/
def findPlainF : Nat → List Char → List (List Char)
  | 0, _ => []
  | fuel + 1, s =>
    match s with
    | [] => []
    | c :: rest =>
      if c = '"' then
        match rest.dropWhile (fun d => d ≠ '"') with
        | d :: tail =>
          if d = '"' then rest.takeWhile (fun d => d ≠ '"') :: findPlainF fuel tail
          else findPlainF fuel rest
        | [] => findPlainF fuel rest
      else findPlainF fuel rest

/-- All plain-literal contents found on the line. -/
def findPlain (line : List Char) : List (List Char) :=
  findPlainF line.length line

/-- Fuel-driven scanner for the interpolated-literal regex: dollar, quote,
any run of non-quote characters, quote. -/
def findInterpF : Nat → List Char → List (List Char)
  | 0, _ => []
  | fuel + 1, s =>
    match s with
    | [] => []
    | c :: rest =>
      if c = '$' then
        match rest with
        | c2 :: rest2 =>
          if c2 = '"' then
            match rest2.dropWhile (fun d => d ≠ '"') with
            | d :: tail =>
              if d = '"' then
                rest2.takeWhile (fun d => d ≠ '"') :: findInterpF fuel tail
              else findInterpF fuel rest
            | [] => findInterpF fuel rest
          else findInterpF fuel rest
        | [] => []
      else findInterpF fuel rest

/-- All interpolated-literal contents found on the line. -/
def findInterp (line : List Char) : List (List Char) :=
  findInterpF line.length line

/-- Whether the text contains a character in the target script range. -/
def hasChinese (t : List Char) : Bool :=
  t.any isChineseChar

/-- Whether the text contains a substitution placeholder span. -/
def hasParams (t : List Char) : Bool :=
  (matchSplit t).isSome

/-- The per-line candidate extraction of the source: if the raw line
matches any ignore pattern, no candidates; otherwise interpolated
contents passing the script-or-placeholder test in scan order, then
plain contents passing the script test and not already recorded. -/
def findChineseStrings (line : List Char) : List (List Char) :=
  if ignoreMatches line then []
  else
    (findPlain line).foldl
      (fun acc m => if hasChinese m && !(decide (m ∈ acc)) then acc ++ [m] else acc)
      ((findInterp line).filter (fun m => hasChinese m || hasParams m))

/-- Pure declarative-metadata line test: the stripped line starts with an
open bracket, contains a close bracket, and only whitespace follows it. -/
def isAttributeLine (line : List Char) : Bool :=
  match pyStrip line with
  | c :: rest =>
    if c = '[' then
      let pre := (c :: rest).takeWhile (fun d => d ≠ ']')
      if pre.length = (c :: rest).length then false
      else (pyStrip ((c :: rest).drop (pre.length + 1))).isEmpty
    else false
  | [] => false

/-- An extracted record: normalized text and its source position. -/
structure ChineseString where
  value : List Char
  pos : List Char
deriving DecidableEq

def mlOpen : List Char := "/*".data

def mlClose : List Char := "*/".data

/-- The per-file line loop of extract_from_file: block-comment state,
attribute skip, then candidate extraction on the raw line, each candidate
normalized and stamped with fileName---lineNumber. -/
def extractLinesAux (fn : List Char) : Bool → Nat → List (List Char) → List ChineseString
  | _, _, [] => []
  | inML, i, line :: rest =>
    let inML1 := if containsSub mlOpen line then true else inML
    if containsSub mlClose line then extractLinesAux fn false (i + 1) rest
    else if inML1 then extractLinesAux fn inML1 (i + 1) rest
    else if isAttributeLine line then extractLinesAux fn inML1 (i + 1) rest
    else
      (findChineseStrings line).map
        (fun t => ⟨formatString t, fn ++ "---".data ++ natDigits i⟩)
      ++ extractLinesAux fn inML1 (i + 1) rest

/-- Per-file extraction: a failed read (none) is caught and contributes
zero records; a successful read is split into lines and scanned. -/
def extractFromFile (fn : List Char) : Option (List Char) → List ChineseString
  | none => []
  | some content => extractLinesAux fn false 1 (splitNl content)

/-- Directory scan: files in walk order, results concatenated. -/
def extractFromDirectory (files : List (List Char × Option (List Char))) :
    List ChineseString :=
  files.foldl (fun acc f => acc ++ extractFromFile f.1 f.2) []

example : findChineseStrings "var x = \"错误信息\"; Debug.LogError(\"other\")".data = [] := by
  decide

example : findChineseStrings "s = \"中\\\"文\";".data = [['中', '\\']] := by
  decide

example : findChineseStrings "x = $\"\x7ba\x7d/\x7bb\x7d\"; y = \"中文\"; z = \"abc\";".data
    = ["\x7ba\x7d/\x7bb\x7d".data, "中文".data] := by
  decide

example : ignoreMatches "throw new System.ArgumentException(\"bad\")".data = true := by
  decide

example : isAttributeLine "  [Tooltip(\"提示文本\")]  ".data = true := by decide

example : isAttributeLine "[Tooltip(\"提示\")] public int x;".data = false := by decide

theorem plain_foldl_mem :
    ∀ (l acc : List (List Char)) (x : List Char),
      x ∈ l.foldl
          (fun acc m => if hasChinese m && !(decide (m ∈ acc)) then acc ++ [m] else acc) acc
        ↔ x ∈ acc ∨ (x ∈ l ∧ hasChinese x = true) := by
  intro l
  induction l with
  | nil => intro acc x; simp
  | cons m l' ih =>
    intro acc x
    rw [List.foldl_cons, ih]
    by_cases hcond : (hasChinese m && !(decide (m ∈ acc))) = true
    · rw [if_pos hcond]
      have h1 : hasChinese m = true := (Bool.and_eq_true _ _ |>.mp hcond).1
      constructor
      · intro hx
        rcases hx with hx | ⟨hx, hch⟩
        · rcases List.mem_append.mp hx with hx | hx
          · exact Or.inl hx
          · have hxm : x = m := by simpa using hx
            subst hxm
            exact Or.inr ⟨List.mem_cons_self _ _, h1⟩
        · exact Or.inr ⟨List.mem_cons_of_mem _ hx, hch⟩
      · intro hx
        rcases hx with hx | ⟨hx, hch⟩
        · exact Or.inl (List.mem_append.mpr (Or.inl hx))
        · rcases List.mem_cons.mp hx with hxm | hx
          · subst hxm
            exact Or.inl (List.mem_append.mpr (Or.inr (by simp)))
          · exact Or.inr ⟨hx, hch⟩
    · rw [if_neg hcond]
      have hor : hasChinese m = false ∨ m ∈ acc := by
        by_cases hc : hasChinese m = true
        · right
          by_contra hm
          exact hcond (by simp [hc, hm])
        · left
          simpa using hc
      constructor
      · intro hx
        rcases hx with hx | ⟨hx, hch⟩
        · exact Or.inl hx
        · exact Or.inr ⟨List.mem_cons_of_mem _ hx, hch⟩
      · intro hx
        rcases hx with hx | ⟨hx, hch⟩
        · exact Or.inl hx
        · rcases List.mem_cons.mp hx with hxm | hx
          · subst hxm
            rcases hor with hf | hm
            · rw [hch] at hf
              exact Bool.noConfusion hf
            · exact Or.inl hm
          · exact Or.inr ⟨hx, hch⟩

theorem plain_foldl_count :
    ∀ (l acc : List (List Char)) (x : List Char), acc.count x ≤ 1 →
      (l.foldl
        (fun acc m => if hasChinese m && !(decide (m ∈ acc)) then acc ++ [m] else acc)
        acc).count x ≤ 1 := by
  intro l
  induction l with
  | nil => intro acc x h; simpa using h
  | cons m l' ih =>
    intro acc x h
    rw [List.foldl_cons]
    apply ih
    by_cases hcond : (hasChinese m && !(decide (m ∈ acc))) = true
    · rw [if_pos hcond]
      have h2 : m ∉ acc := by
        have := (Bool.and_eq_true _ _ |>.mp hcond).2
        simpa using this
      rw [List.count_append]
      by_cases hx : x = m
      · subst hx
        have hz : acc.count x = 0 := List.count_eq_zero.mpr h2
        simp [hz]
      · have hz : List.count x [m] = 0 := List.count_eq_zero.mpr (by simp [hx])
        rw [hz]
        omega
    · rw [if_neg hcond]
      exact h

theorem findPlainF_no_quote :
    ∀ fuel s m, m ∈ findPlainF fuel s → ∀ c ∈ m, c ≠ '"' := by
  intro fuel
  induction fuel with
  | zero => intro s m hm; simp [findPlainF] at hm
  | succ fuel ih =>
    intro s m hm
    cases s with
    | nil => simp [findPlainF] at hm
    | cons c0 rest =>
      simp only [findPlainF] at hm
      by_cases hc : c0 = '"'
      · rw [if_pos hc] at hm
        rcases hd : rest.dropWhile (fun d => d ≠ '"') with _ | ⟨d, tail⟩
        · rw [hd] at hm
          exact ih rest m hm
        · rw [hd] at hm
          simp only at hm
          by_cases hdd : d = '"'
          · rw [if_pos hdd] at hm
            rcases List.mem_cons.mp hm with hm | hm
            · subst hm
              intro c hcm
              have := List.mem_takeWhile_imp hcm
              simpa using this
            · exact ih tail m hm
          · rw [if_neg hdd] at hm
            exact ih rest m hm
      · rw [if_neg hc] at hm
        exact ih rest m hm

theorem findInterpF_no_quote :
    ∀ fuel s m, m ∈ findInterpF fuel s → ∀ c ∈ m, c ≠ '"' := by
  intro fuel
  induction fuel with
  | zero => intro s m hm; simp [findInterpF] at hm
  | succ fuel ih =>
    intro s m hm
    cases s with
    | nil => simp [findInterpF] at hm
    | cons c0 rest =>
      simp only [findInterpF] at hm
      by_cases hc : c0 = '$'
      · rw [if_pos hc] at hm
        cases rest with
        | nil => simp at hm
        | cons c2 rest2 =>
          simp only at hm
          by_cases hc2 : c2 = '"'
          · rw [if_pos hc2] at hm
            rcases hd : rest2.dropWhile (fun d => d ≠ '"') with _ | ⟨d, tail⟩
            · rw [hd] at hm
              exact ih (c2 :: rest2) m hm
            · rw [hd] at hm
              simp only at hm
              by_cases hdd : d = '"'
              · rw [if_pos hdd] at hm
                rcases List.mem_cons.mp hm with hm | hm
                · subst hm
                  intro c hcm
                  have := List.mem_takeWhile_imp hcm
                  simpa using this
                · exact ih tail m hm
              · rw [if_neg hdd] at hm
                exact ih (c2 :: rest2) m hm
          · rw [if_neg hc2] at hm
            exact ih (c2 :: rest2) m hm
      · rw [if_neg hc] at hm
        exact ih rest m hm

/-! ## Claim theorems for the normalizer (C2, C3) -/

/-- C3, counterexample: the claim says every placeholder span is rewritten
to its sequential index in left-to-right order, so the text open-brace a
close-brace open-brace 0 close-brace should normalize with indices 0 then 1;
the source instead substitutes each match at its first textual occurrence,
so the second match (itself the token for 0) overwrites the token placed by
the first replacement, yielding indices 1 then 0. -/
theorem C3_counterexample :
    formatString "\x7ba\x7d\x7b0\x7d".data = "\x7b1\x7d\x7b0\x7d".data ∧
    formatString "\x7ba\x7d\x7b0\x7d".data ≠ "\x7b0\x7d\x7b1\x7d".data := by
  exact ⟨by decide, by decide⟩

/-- C3 (amended): whenever no matched placeholder is itself a pure digit
token, the source normalizer formatString replaces every placeholder span,
in left-to-right order of appearance, by the tokens for 0, 1, 2, ...,
with each textual occurrence receiving its own sequential index, and
non-placeholder text unchanged; this is exactly the positional rewriting
specNormalize 0. -/
theorem C3_sequential_rewriting (x : List Char)
    (h : ∀ p ∈ findPlaceholders x, isDigitToken p = false) :
    formatString x = specNormalize 0 x :=
  formatString_eq_specNormalize h

/-- C3, witness: the claim's own example, with no digit-token placeholder,
normalizes to the sequential form. -/
theorem C3_witness :
    (∀ p ∈ findPlaceholders "Lv.\x7bcfg.level\x7d / \x7bNumberUtils.Format(power)\x7d".data,
      isDigitToken p = false) ∧
    formatString "Lv.\x7bcfg.level\x7d / \x7bNumberUtils.Format(power)\x7d".data
      = "Lv.\x7b0\x7d / \x7b1\x7d".data :=
  ⟨by decide,
   (C3_sequential_rewriting _ (by decide)).trans (by decide)⟩

/-- C2, counterexample: normalization is not idempotent. On the text
open-brace a close-brace followed by two digit-zero tokens, one pass gives
tokens 1, 2, 0 and a second pass gives tokens 2, 1, 0. -/
theorem C2_counterexample :
    formatString "\x7ba\x7d\x7b0\x7d\x7b0\x7d".data = "\x7b1\x7d\x7b2\x7d\x7b0\x7d".data ∧
    formatString "\x7b1\x7d\x7b2\x7d\x7b0\x7d".data = "\x7b2\x7d\x7b1\x7d\x7b0\x7d".data ∧
    formatString (formatString "\x7ba\x7d\x7b0\x7d\x7b0\x7d".data)
      ≠ formatString "\x7ba\x7d\x7b0\x7d\x7b0\x7d".data := by
  exact ⟨by decide, by decide, by decide⟩

/-- C2 (amended): placeholder normalization is idempotent on every literal
text none of whose matched placeholders is itself a pure digit token:
formatString (formatString x) = formatString x for all such x. -/
theorem C2_idempotent (x : List Char)
    (h : ∀ p ∈ findPlaceholders x, isDigitToken p = false) :
    formatString (formatString x) = formatString x := by
  rw [formatString_eq_specNormalize h, formatString_specNormalize_self]

/-- C2, witness: idempotence at a concrete literal with a named
placeholder. -/
theorem C2_witness :
    (∀ p ∈ findPlaceholders "Lv.\x7bcfg.level\x7d".data, isDigitToken p = false) ∧
    formatString (formatString "Lv.\x7bcfg.level\x7d".data)
      = formatString "Lv.\x7bcfg.level\x7d".data :=
  ⟨by decide, C2_idempotent _ (by decide)⟩

/-! ## Claim theorems for the per-line extraction (C4, C5, C6, C10) -/

/-- C4: a raw source line matching any entry of the fixed ignore-pattern
table yields zero candidates: the candidate extractor returns the empty
list, and inside the per-file loop such a line (outside comments and not
an attribute line) contributes nothing, the decision being taken on the
unmodified raw line that the loop passes to the extractor. -/
theorem C4_suppression (line : List Char) (h : ignoreMatches line = true) :
    findChineseStrings line = [] ∧
    ∀ (fn : List Char) (i : Nat) (rest : List (List Char)),
      containsSub mlOpen line = false → containsSub mlClose line = false →
      isAttributeLine line = false →
      extractLinesAux fn false i (line :: rest) = extractLinesAux fn false (i + 1) rest := by
  constructor
  · simp only [findChineseStrings, if_pos h]
  · intro fn i rest hopen hclose hattr
    simp [extractLinesAux, hopen, hclose, hattr, findChineseStrings, h]

/-- C4, witness: the line from the specification containing both an
assignment with a target literal and a diagnostic call yields zero
candidates, at the extractor and in the per-file loop. -/
theorem C4_witness :
    ignoreMatches "var x = \"错误信息\"; Debug.LogError(\"other\")".data = true ∧
    findChineseStrings "var x = \"错误信息\"; Debug.LogError(\"other\")".data = [] ∧
    extractLinesAux "F.cs".data false 7
        ["var x = \"错误信息\"; Debug.LogError(\"other\")".data]
      = extractLinesAux "F.cs".data false 8 [] :=
  ⟨by decide,
   (C4_suppression _ (by decide)).1,
   (C4_suppression _ (by decide)).2 "F.cs".data 7 [] (by decide) (by decide) (by decide)⟩

/-- C5: on a non-suppressed line, a text is a candidate iff it is an
interpolated-literal content containing a script character or a
placeholder, or a plain-literal content containing a script character;
in particular a plain literal with placeholders but no script character is
never a candidate, and a text found at most once by the interpolated pass
is recorded at most once even when the plain pass finds it again. -/
theorem C5_candidate_rule (line m : List Char) (hig : ignoreMatches line = false) :
    (m ∈ findChineseStrings line ↔
      (m ∈ findInterp line ∧ (hasChinese m || hasParams m) = true) ∨
      (m ∈ findPlain line ∧ hasChinese m = true)) ∧
    ((findInterp line).count m ≤ 1 → (findChineseStrings line).count m ≤ 1) := by
  have hfc : findChineseStrings line = (findPlain line).foldl
      (fun acc m => if hasChinese m && !(decide (m ∈ acc)) then acc ++ [m] else acc)
      ((findInterp line).filter (fun m => hasChinese m || hasParams m)) := by
    simp only [findChineseStrings]
    rw [if_neg (by rw [hig]; decide)]
  constructor
  · rw [hfc, plain_foldl_mem]
    constructor
    · intro hx
      rcases hx with hx | hx
      · rcases List.mem_filter.mp hx with ⟨h1, h2⟩
        exact Or.inl ⟨h1, h2⟩
      · exact Or.inr hx
    · intro hx
      rcases hx with ⟨h1, h2⟩ | hx
      · exact Or.inl (List.mem_filter.mpr ⟨h1, h2⟩)
      · exact Or.inr hx
  · intro hcount
    rw [hfc]
    apply plain_foldl_count
    calc ((findInterp line).filter (fun m => hasChinese m || hasParams m)).count m
        ≤ (findInterp line).count m := (List.filter_sublist _).count_le m
      _ ≤ 1 := hcount

/-- C5, witness: on a line with an interpolated placeholder-only literal,
a plain script literal and a plain ASCII literal, the placeholder-only
interpolated content and the script content are candidates, the script
content exactly once. -/
theorem C5_witness :
    ("中文".data ∈
      findChineseStrings "x = $\"\x7ba\x7d/\x7bb\x7d\"; y = \"中文\"; z = \"abc\";".data) ∧
    ("\x7ba\x7d/\x7bb\x7d".data ∈
      findChineseStrings "x = $\"\x7ba\x7d/\x7bb\x7d\"; y = \"中文\"; z = \"abc\";".data) ∧
    ("abc".data ∉
      findChineseStrings "x = $\"\x7ba\x7d/\x7bb\x7d\"; y = \"中文\"; z = \"abc\";".data) ∧
    (findChineseStrings "x = $\"\x7ba\x7d/\x7bb\x7d\"; y = \"中文\"; z = \"abc\";".data).count
        "中文".data ≤ 1 :=
  ⟨((C5_candidate_rule _ "中文".data (by decide)).1).mpr (Or.inr ⟨by decide, by decide⟩),
   ((C5_candidate_rule _ "\x7ba\x7d/\x7bb\x7d".data (by decide)).1).mpr
     (Or.inl ⟨by decide, by decide⟩),
   fun hmem => by
     have := ((C5_candidate_rule _ "abc".data (by decide)).1).mp hmem
     revert this
     decide,
   (C5_candidate_rule _ "中文".data (by decide)).2 (by decide)⟩

/-- C6, counterexample: the claim says a backslash-escaped quote inside a
literal does not terminate it, so the line assigning the escaped literal
should yield the whole escaped text as one candidate; the source regexes
stop at every quote, escaped or not, so the candidate is the text cut at
the escaped quote. -/
theorem C6_counterexample :
    findChineseStrings "s = \"中\\\"文\";".data = [['中', '\\']] ∧
    "中\\\"文".data ∉ findChineseStrings "s = \"中\\\"文\";".data := by
  exact ⟨by decide, by decide⟩

/-- C6 (amended): candidate delimiting is not escape-aware: an
interpolated literal's content extends from the dollar-quote opener to
the next quote and a plain literal's content is the text between two
consecutive quotes, whether or not a quote is preceded by a backslash;
consequently no extracted candidate ever contains a quote character. -/
theorem C6_no_quote_in_candidate (line m : List Char)
    (hm : m ∈ findChineseStrings line) : ∀ c ∈ m, c ≠ '"' := by
  by_cases hig : ignoreMatches line = true
  · rw [findChineseStrings, if_pos hig] at hm
    simp at hm
  · have hig' : ignoreMatches line = false := by simpa using hig
    rw [findChineseStrings] at hm
    rw [if_neg (by rw [hig']; decide)] at hm
    rw [plain_foldl_mem] at hm
    rcases hm with hm | ⟨hm, _⟩
    · have hi : m ∈ findInterp line := (List.mem_filter.mp hm).1
      exact findInterpF_no_quote line.length line m hi
    · exact findPlainF_no_quote line.length line m hm

/-- C6, witness: the candidate extracted from the escaped-quote line
contains no quote character: it was terminated at the escaped quote. -/
theorem C6_witness :
    (['中', '\\'] ∈ findChineseStrings "s = \"中\\\"文\";".data) ∧
    ('中' ∈ ['中', '\\']) ∧ '中' ≠ '"' :=
  ⟨by decide, by decide,
   C6_no_quote_in_candidate "s = \"中\\\"文\";".data ['中', '\\'] (by decide) '中' (by decide)⟩

/-- C10: a line containing the block-comment opener and no closer yields
zero candidates itself and switches the scan into the in-comment state,
and a line containing the closer yields zero candidates itself and clears
the state. -/
theorem C10_block_comment_lines (fn line : List Char) (inML : Bool) (i : Nat)
    (rest : List (List Char)) :
    (containsSub mlOpen line = true → containsSub mlClose line = false →
      extractLinesAux fn inML i (line :: rest) = extractLinesAux fn true (i + 1) rest) ∧
    (containsSub mlClose line = true →
      extractLinesAux fn inML i (line :: rest) = extractLinesAux fn false (i + 1) rest) := by
  constructor
  · intro hopen hclose
    simp [extractLinesAux, hopen, hclose]
  · intro hclose
    simp [extractLinesAux, hclose]

/-- C10, witness: a concrete opener line and a concrete closer line each
contribute nothing and drive the state as claimed. -/
theorem C10_witness :
    extractLinesAux "G.cs".data false 3 ["int a; /* start \"中\"".data]
        = extractLinesAux "G.cs".data true 4 [] ∧
    extractLinesAux "G.cs".data true 9 ["end */ var s = \"中\";".data]
        = extractLinesAux "G.cs".data false 10 [] :=
  ⟨(C10_block_comment_lines "G.cs".data "int a; /* start \"中\"".data false 3 []).1
     (by decide) (by decide),
   (C10_block_comment_lines "G.cs".data "end */ var s = \"中\";".data true 9 []).2
     (by decide)⟩

/-! ## Key generation (CSVGenerator._default_key) and CSV rows -/

/-- Fuel-driven scanner removing every digit-placeholder span, the re.sub
of the open-brace one-or-more-digits close-brace pattern with nothing. -/
def stripDigitParamsF : Nat → List Char → List Char
  | 0, _ => []
  | fuel + 1, s =>
    match s with
    | [] => []
    | c :: rest =>
      if c = '{' then
        if (rest.takeWhile Char.isDigit).isEmpty then c :: stripDigitParamsF fuel rest
        else
          match rest.dropWhile Char.isDigit with
          | d :: tail =>
            if d = '}' then stripDigitParamsF fuel tail
            else c :: stripDigitParamsF fuel rest
          | [] => c :: stripDigitParamsF fuel rest
      else c :: stripDigitParamsF fuel rest

/-- Text with all digit-placeholder spans removed. -/
def stripDigitParams (s : List Char) : List Char :=
  stripDigitParamsF s.length s

/-- Fuel-driven count of digit-placeholder spans (re.findall length). -/
def countDigitParamsF : Nat → List Char → Nat
  | 0, _ => 0
  | fuel + 1, s =>
    match s with
    | [] => 0
    | c :: rest =>
      if c = '{' then
        if (rest.takeWhile Char.isDigit).isEmpty then countDigitParamsF fuel rest
        else
          match rest.dropWhile Char.isDigit with
          | d :: tail =>
            if d = '}' then countDigitParamsF fuel tail + 1
            else countDigitParamsF fuel rest
          | [] => countDigitParamsF fuel rest
      else countDigitParamsF fuel rest

/-- Number of digit-placeholder spans in the text. -/
def countDigitParams (s : List Char) : Nat :=
  countDigitParamsF s.length s

/-- The fixed word table of the default key generator, in source order.
The Python dict literal keeps the last binding of a duplicated key. -/
def csvWordMap : List (List Char × List Char) :=
  [("探索".data, "EXPLORE".data), ("度".data, "DEGREE".data),
   ("推荐".data, "RECOMMEND".data), ("战力".data, "POWER".data),
   ("等级".data, "LEVEL".data), ("阵容".data, "LINEUP".data),
   ("为空".data, "EMPTY".data), ("无法".data, "CANNOT".data),
   ("跳过".data, "SKIP".data), ("主线".data, "MAINLINE".data),
   ("关卡".data, "LEVEL".data), ("尚未".data, "NOT".data),
   ("解锁".data, "UNLOCK".data), ("路径".data, "PATH".data),
   ("点".data, "POINT".data), ("数量".data, "COUNT".data),
   ("错误".data, "ERROR".data), ("总".data, "TOTAL".data),
   ("需".data, "NEED".data), ("地图".data, "MAP".data),
   ("资产".data, "ASSET".data), ("状态".data, "STATE".data),
   ("信息".data, "INFO".data), ("显示".data, "SHOW".data),
   ("奖励".data, "REWARD".data), ("任务".data, "TASK".data),
   ("完成".data, "COMPLETE".data), ("失败".data, "FAIL".data),
   ("成功".data, "SUCCESS".data), ("确认".data, "CONFIRM".data),
   ("取消".data, "CANCEL".data), ("返回".data, "BACK".data),
   ("关闭".data, "CLOSE".data), ("打开".data, "OPEN".data),
   ("设置".data, "SETTING".data), ("选项".data, "OPTION".data),
   ("提示".data, "TIP".data), ("警告".data, "WARNING".data),
   ("错误".data, "ERROR".data), ("可以".data, "CAN".data),
   ("任命".data, "APPOINT".data), ("州牧".data, "GOVERNOR".data),
   ("获得".data, "GET".data), ("额外".data, "EXTRA".data),
   ("占领".data, "OCCUPY".data), ("产出".data, "OUTPUT".data),
   ("加成".data, "BONUS".data),
   ("抽".data, "DRAW".data), ("卡".data, "CARD".data),
   ("道".data, "ITEM".data), ("具".data, "PROP".data),
   ("足".data, "SUFFICIENT".data), ("次".data, "TIME".data),
   ("必".data, "MUST".data), ("得".data, "GET".data),
   ("红".data, "RED".data), ("将".data, "GENERAL".data),
   ("累".data, "TOTAL".data), ("计".data, "COUNT".data),
   ("确".data, "CONFIRM".data), ("认".data, "CONFIRM".data),
   ("购".data, "PURCHASE".data), ("买".data, "BUY".data),
   ("请".data, "PLEASE".data), ("拖".data, "DRAG".data),
   ("拽".data, "DROP".data), ("指".data, "SPECIFY".data),
   ("位".data, "POSITION".data), ("物".data, "ITEM".data),
   ("品".data, "PRODUCT".data), ("数".data, "NUMBER".data),
   ("量".data, "AMOUNT".data), ("无".data, "NO".data),
   ("法".data, "WAY".data), ("完".data, "COMPLETE".data),
   ("敌".data, "ENEMY".data), ("方".data, "SIDE".data),
   ("还".data, "STILL".data), ("有".data, "HAVE".data),
   ("单".data, "SINGLE".data), ("位".data, "UNIT".data),
   ("战".data, "BATTLE".data), ("斗".data, "FIGHT".data),
   ("胜".data, "VICTORY".data), ("利".data, "PROFIT".data),
   ("奖".data, "REWARD".data), ("励".data, "BONUS".data),
   ("准".data, "PREPARE".data), ("备".data, "READY".data),
   ("开".data, "START".data), ("始".data, "BEGIN".data),
   ("恭".data, "CONGRATULATE".data), ("喜".data, "JOY".data),
   ("获".data, "GET".data)]

/-- Dictionary lookup with Python literal semantics: the last binding of a
duplicated key wins. -/
def lookupLast : List (List Char × List Char) → List Char → Option (List Char)
  | [], _ => none
  | e :: rest, k =>
    match lookupLast rest k with
    | some v => some v
    | none => if e.1 = k then some e.2 else none

/-- The word-collection loop of the default key generator: only characters
in the script range are considered; each is looked up in the table with
itself as the fallback, and the resulting token is kept unconditionally. -/
def collectWords : List Char → List (List Char)
  | [] => []
  | c :: rest =>
    if isChineseChar c then
      ((lookupLast csvWordMap [c]).getD [c]) :: collectWords rest
    else collectWords rest

/-- Python underscore-join. -/
def joinUnderscore : List (List Char) → List Char
  | [] => []
  | [w] => w
  | w :: ws => w ++ '_' :: joinUnderscore ws

/-- CSVGenerator._default_key: strip digit placeholders, fall back to
PARAM-count or TEXT keys, otherwise join the collected word tokens with
underscores, truncate the non-scope portion when the remaining budget is
positive, and prefix the upper-cased scope. -/
def defaultKey (text ctx : List Char) : List Char :=
  let moduleName := ctx.map Char.toUpper
  let cleanText := pyStrip (stripDigitParams text)
  if cleanText.isEmpty then
    if moduleName.isEmpty then "PARAM_".data ++ natDigits (countDigitParams text)
    else moduleName ++ "_PARAM_".data ++ natDigits (countDigitParams text)
  else
    let words := collectWords cleanText
    if words.isEmpty then
      if moduleName.isEmpty then "TEXT".data else moduleName ++ "_TEXT".data
    else
      let result := joinUnderscore words
      let maxLen : Int := 50 - (moduleName.length : Int) - 1
      let result2 := if 0 < maxLen then result.take maxLen.toNat else result
      if moduleName.isEmpty then result2 else moduleName ++ '_' :: result2

/-- The prefix check of CSVGenerator.generate: a key not starting with the
upper-cased scope and underscore gets that prefix prepended. -/
def ensurePrefix (ctx key : List Char) : List Char :=
  if ctx.isEmpty then key
  else
    let pfx := ctx.map Char.toUpper ++ ['_']
    if pfx.isPrefixOf key then key else pfx ++ key

/-- One output row of the generated table. -/
structure OutRow where
  key : List Char
  value : List Char
  pos : List Char
deriving DecidableEq

/-- The deduplication loop of CSVGenerator.generate: a dict keyed by the
normalized value keeps the first record of each value, in insertion
order; seen carries the values already present. -/
def dedupeFrom : List (List Char) → List ChineseString → List ChineseString
  | _, [] => []
  | seen, s :: rest =>
    if s.value ∈ seen then dedupeFrom seen rest
    else s :: dedupeFrom (s.value :: seen) rest

/-- Deduplicated records in first-insertion order. -/
def dedupe (l : List ChineseString) : List ChineseString :=
  dedupeFrom [] l

/-- Row construction for one unique record (default key generation path). -/
def rowOf (ctx : List Char) (cs : ChineseString) : OutRow :=
  ⟨ensurePrefix ctx (defaultKey cs.value ctx), cs.value, cs.pos⟩

/-- The row list CSVGenerator.generate writes for a scope (no external
translator configured). -/
def generateRows (strings : List ChineseString) (ctx : List Char) : List OutRow :=
  (dedupe strings).map (rowOf ctx)

/-- Fuel-driven helper for the specification-words deduplication. -/
def specFirstOccurrencesF : Nat → List ChineseString → List ChineseString
  | 0, _ => []
  | fuel + 1, l =>
    match l with
    | [] => []
    | s :: rest =>
      s :: specFirstOccurrencesF fuel (rest.filter (fun t => decide (t.value ≠ s.value)))

/-- Definition following the specification words: the first occurrence of
each normalized value, in order of first appearance, later occurrences of
the same value discarded. -/
def specFirstOccurrences (l : List ChineseString) : List ChineseString :=
  specFirstOccurrencesF l.length l

example : defaultKey "A中".data "UI".data = "UI_中".data := by decide

example : (defaultKey "中中中".data (List.replicate 49 'a')).length = 55 := by decide

example : defaultKey "位".data [] = "UNIT".data := by decide

example : dedupe [⟨"甲".data, "f---1".data⟩, ⟨"乙".data, "f---2".data⟩,
    ⟨"甲".data, "f---3".data⟩]
    = [⟨"甲".data, "f---1".data⟩, ⟨"乙".data, "f---2".data⟩] := by decide

theorem specFirstOccurrencesF_congr :
    ∀ (n m : Nat) (l : List ChineseString), l.length ≤ n → l.length ≤ m →
      specFirstOccurrencesF n l = specFirstOccurrencesF m l := by
  intro n
  induction n using Nat.strong_induction_on with
  | _ n ih =>
    intro m l hn hm
    match n, m with
    | 0, 0 => rfl
    | 0, m + 1 =>
      have hl : l = [] := List.length_eq_zero.mp (Nat.le_zero.mp hn)
      subst hl
      rfl
    | n + 1, 0 =>
      have hl : l = [] := List.length_eq_zero.mp (Nat.le_zero.mp hm)
      subst hl
      rfl
    | n + 1, m + 1 =>
      cases l with
      | nil => rfl
      | cons s rest =>
        simp only [specFirstOccurrencesF]
        have hlen := List.length_filter_le (fun t => decide (t.value ≠ s.value)) rest
        simp only [List.length_cons] at hn hm
        exact congrArg (s :: ·)
          (ih n (Nat.lt_succ_self n) m _ (by omega) (by omega))

/-- Unfolding equation for specFirstOccurrences. -/
theorem specFirstOccurrences_eq (l : List ChineseString) :
    specFirstOccurrences l = match l with
      | [] => []
      | s :: rest =>
        s :: specFirstOccurrences (rest.filter (fun t => decide (t.value ≠ s.value))) := by
  cases l with
  | nil => rfl
  | cons s rest =>
    show specFirstOccurrencesF (rest.length + 1) (s :: rest) = _
    simp only [specFirstOccurrencesF]
    have hlen := List.length_filter_le (fun t => decide (t.value ≠ s.value)) rest
    exact congrArg (s :: ·)
      (specFirstOccurrencesF_congr rest.length _ _ (by omega) (Nat.le_refl _))

theorem dedupeFrom_eq_spec :
    ∀ (l : List ChineseString) (seen : List (List Char)),
      dedupeFrom seen l
        = specFirstOccurrences (l.filter (fun t => decide (t.value ∉ seen))) := by
  intro l
  induction l with
  | nil => intro seen; rfl
  | cons s rest ih =>
    intro seen
    simp only [dedupeFrom]
    by_cases hs : s.value ∈ seen
    · rw [if_pos hs]
      rw [List.filter_cons_of_neg (by simp [hs])]
      exact ih seen
    · rw [if_neg hs]
      rw [List.filter_cons_of_pos (by simp [hs])]
      rw [specFirstOccurrences_eq]
      simp only
      rw [List.filter_filter]
      have hpt : (fun t : ChineseString =>
            decide (t.value ≠ s.value) && decide (t.value ∉ seen))
          = (fun t : ChineseString => decide (t.value ∉ s.value :: seen)) := by
        funext t
        by_cases h1 : t.value = s.value <;> by_cases h2 : t.value ∈ seen <;>
          simp [h1, h2]
      rw [hpt, ih (s.value :: seen)]

theorem specFO_mem :
    ∀ (n : Nat) (l : List ChineseString), l.length ≤ n →
      ∀ x ∈ specFirstOccurrences l, x ∈ l := by
  intro n
  induction n with
  | zero =>
    intro l hl x hx
    have : l = [] := List.length_eq_zero.mp (Nat.le_zero.mp hl)
    subst this
    exact absurd hx (List.not_mem_nil x)
  | succ n ih =>
    intro l hl x hx
    cases l with
    | nil => exact absurd hx (List.not_mem_nil x)
    | cons s rest =>
      rw [specFirstOccurrences_eq] at hx
      simp only at hx
      rcases List.mem_cons.mp hx with hx | hx
      · exact hx ▸ List.mem_cons_self _ _
      · have hlen := List.length_filter_le (fun t => decide (t.value ≠ s.value)) rest
        simp only [List.length_cons] at hl
        have := ih _ (by omega) x hx
        exact List.mem_cons_of_mem _ (List.mem_of_mem_filter this)

theorem specFO_pairwise :
    ∀ (n : Nat) (l : List ChineseString), l.length ≤ n →
      (specFirstOccurrences l).Pairwise (fun a b => a.value ≠ b.value) := by
  intro n
  induction n with
  | zero =>
    intro l hl
    have : l = [] := List.length_eq_zero.mp (Nat.le_zero.mp hl)
    subst this
    exact List.Pairwise.nil
  | succ n ih =>
    intro l hl
    cases l with
    | nil => exact List.Pairwise.nil
    | cons s rest =>
      rw [specFirstOccurrences_eq]
      simp only
      have hlen := List.length_filter_le (fun t => decide (t.value ≠ s.value)) rest
      simp only [List.length_cons] at hl
      refine List.Pairwise.cons ?_ (ih _ (by omega))
      intro x hx
      have hxf := specFO_mem n _ (by omega) x hx
      have := List.of_mem_filter hxf
      intro he
      simp [he] at this

/-- C1: for every record sequence and scope, the generated table has
exactly one row per distinct normalized value, each row carrying the value
and position of the first occurrence encountered, and the rows appear in
first-insertion order: the rows are exactly the specification-words first
occurrences mapped to rows, and their values are pairwise distinct. -/
theorem C1_dedup_first_wins (strings : List ChineseString) (ctx : List Char) :
    generateRows strings ctx = (specFirstOccurrences strings).map (rowOf ctx) ∧
    (generateRows strings ctx).Pairwise (fun r1 r2 => r1.value ≠ r2.value) := by
  have hd : dedupe strings = specFirstOccurrences strings := by
    have h0 := dedupeFrom_eq_spec strings []
    have hfilter : strings.filter
        (fun t => decide (t.value ∉ ([] : List (List Char)))) = strings := by
      apply List.filter_eq_self.mpr
      intro a _
      simp
    rw [dedupe, h0, hfilter]
  constructor
  · rw [generateRows, hd]
  · rw [generateRows, hd]
    have hpw := specFO_pairwise strings.length strings (Nat.le_refl _)
    exact List.Pairwise.map (rowOf ctx) (fun a b h => h) hpw

/-- C7, counterexample: the claim says an unmapped character that is still
in the source script range is dropped from the key, and other characters
pass through as single-character tokens; the default key generator keeps
the unmapped script character in the key and silently skips the Latin
character instead. -/
theorem C7_counterexample :
    defaultKey "A中".data "UI".data = "UI_中".data ∧
    '中' ∈ defaultKey "A中".data "UI".data ∧
    isChineseChar '中' = true ∧
    lookupLast csvWordMap ['中'] = none := by
  exact ⟨by decide, by decide, by decide, by decide⟩

/-- C7 (amended): in default key generation only the characters in the
source script range are considered (all others are skipped), each is
mapped through the fixed table with an unmapped character passing through
as itself, and no token is dropped afterwards, even when it still lies in
the script range: the word list has exactly one token per in-range
character and contains the looked-up token of every in-range character. -/
theorem C7_word_collection (text : List Char) :
    (collectWords text).length = (text.filter isChineseChar).length ∧
    ∀ c ∈ text, isChineseChar c = true →
      ((lookupLast csvWordMap [c]).getD [c]) ∈ collectWords text := by
  induction text with
  | nil => exact ⟨rfl, by simp⟩
  | cons c rest ih =>
    constructor
    · simp only [collectWords]
      by_cases hc : isChineseChar c = true
      · rw [if_pos hc, List.filter_cons_of_pos hc]
        simp [ih.1]
      · rw [if_neg hc, List.filter_cons_of_neg (by simpa using hc)]
        exact ih.1
    · intro x hx hcx
      rcases List.mem_cons.mp hx with hx | hx
      · subst hx
        simp only [collectWords, if_pos hcx]
        exact List.mem_cons_self _ _
      · have hmem := ih.2 x hx hcx
        simp only [collectWords]
        by_cases hc : isChineseChar c = true
        · rw [if_pos hc]
          exact List.mem_cons_of_mem _ hmem
        · rw [if_neg hc]
          exact hmem

/-- C7, witness: the unmapped script character passes into the word list
as itself and the word list counts exactly the in-range characters. -/
theorem C7_witness :
    ('中' ∈ "A中".data) ∧ isChineseChar '中' = true ∧
    ((lookupLast csvWordMap ['中']).getD ['中']) ∈ collectWords "A中".data ∧
    (collectWords "A中".data).length = ("A中".data.filter isChineseChar).length :=
  ⟨by decide, by decide,
   (C7_word_collection "A中".data).2 '中' (by decide) (by decide),
   (C7_word_collection "A中".data).1⟩

/-- C8, counterexample: with a 49-character scope the generated key is 55
characters long, breaking the claimed 50-character ceiling: the truncation
budget is not positive, so no truncation happens. -/
theorem C8_counterexample :
    (defaultKey "中中中".data (List.replicate 49 'a')).length = 55 ∧
    50 < (defaultKey "中中中".data (List.replicate 49 'a')).length := by
  exact ⟨by decide, by decide⟩

/-- C8 (amended): when the scope name has at most 48 characters and the
value has a nonempty cleaned text with a nonempty word list, the generated
key is at most 50 characters long, the non-scope portion being truncated
as needed; the placeholder-only and no-word fallbacks and longer scopes
are not truncated and may exceed the ceiling. -/
theorem C8_length_bound (text ctx : List Char) (hctx : ctx.length ≤ 48)
    (hclean : (pyStrip (stripDigitParams text)).isEmpty = false)
    (hwords : (collectWords (pyStrip (stripDigitParams text))).isEmpty = false) :
    (defaultKey text ctx).length ≤ 50 := by
  unfold defaultKey
  rw [if_neg (by simp [hclean]), if_neg (by simp [hwords])]
  by_cases hm : (ctx.map Char.toUpper).isEmpty = true
  · rw [if_pos hm]
    have hlen : (ctx.map Char.toUpper).length = 0 := by
      simpa using List.isEmpty_iff.mp hm
    rw [hlen]
    rw [if_pos (by omega : (0 : Int) < 50 - ((0 : Nat) : Int) - 1)]
    simp only [List.length_take]
    have htn : ((50 : Int) - ((0 : Nat) : Int) - 1).toNat = 49 := by omega
    rw [htn]
    omega
  · rw [if_neg hm]
    have hlen : (ctx.map Char.toUpper).length = ctx.length := List.length_map _ _
    have hpos : (0 : Int) < 50 - ((ctx.map Char.toUpper).length : Int) - 1 := by
      rw [hlen]
      omega
    rw [if_pos hpos]
    simp only [List.length_append, List.length_cons, List.length_take]
    rw [hlen]
    have htn : ((50 : Int) - (ctx.length : Int) - 1).toNat = 49 - ctx.length := by
      omega
    rw [htn]
    omega

/-- C8, witness: a short scope and an all-unmapped value stay within the
ceiling. -/
theorem C8_witness :
    ("ui".data.length ≤ 48) ∧ (defaultKey "中中中".data "ui".data).length ≤ 50 :=
  ⟨by decide, C8_length_bound "中中中".data "ui".data (by decide) (by decide) (by decide)⟩

/-- C9: a file whose read failed contributes zero records and the scan
over the remaining files continues unaffected: extraction over a file
list containing a failed read equals the concatenation of the extractions
over the files before and after it; no error propagates. -/
theorem C9_read_failure_isolated (fn : List Char)
    (pre post : List (List Char × Option (List Char))) :
    extractFromFile fn none = [] ∧
    extractFromDirectory (pre ++ (fn, none) :: post)
      = extractFromDirectory pre ++ extractFromDirectory post := by
  have hacc : ∀ (fs : List (List Char × Option (List Char))) (acc : List ChineseString),
      fs.foldl (fun acc f => acc ++ extractFromFile f.1 f.2) acc
        = acc ++ fs.foldl (fun acc f => acc ++ extractFromFile f.1 f.2) [] := by
    intro fs
    induction fs with
    | nil => intro acc; simp
    | cons f fs ih =>
      intro acc
      rw [List.foldl_cons, List.foldl_cons, ih, List.nil_append,
        ih (extractFromFile f.1 f.2)]
      simp [List.append_assoc]
  constructor
  · rfl
  · show List.foldl _ [] (pre ++ (fn, none) :: post) = _
    rw [List.foldl_append, List.foldl_cons]
    show List.foldl _ (List.foldl _ [] pre ++ extractFromFile fn none) post = _
    rw [show extractFromFile fn none = [] from rfl, List.append_nil, hacc]
    rfl

end ExtractChinese
